import Mathlib

/-!
Verification of the escape-buster extension's core string machinery.

The embedding models the functions of `src/extension.ts`:
`buildEscapeStyleMap`, `parseEscapeSequences`, `multiLineToEscapedString`,
`isPositionInString`, and the save-time string-range re-resolution loop.
Strings are modelled as `List Char`; the JavaScript regular expressions used
by the source are all literal patterns (or a two-way alternation), modelled
by substring tests; `String.prototype.replace` with a global literal pattern
is modelled by `replaceAll`, which rewrites leftmost matches and resumes
after the replaced text, exactly as the JavaScript engine does.
-/

/-- The two escape styles the extension distinguishes. -/
inductive EscStyle where
  | single
  | double
deriving DecidableEq, Repr

/-- The style map built per literal: one optional style for each of the seven
special characters (newline, carriage return, tab, double quote, single
quote, backslash, forward slash).  A `none` field is an absent entry. -/
structure StyleMap where
  nl  : Option EscStyle
  cr  : Option EscStyle
  tab : Option EscStyle
  dq  : Option EscStyle
  sq  : Option EscStyle
  bs  : Option EscStyle
  sl  : Option EscStyle
deriving DecidableEq, Repr

/-- The empty style map (no entries). -/
def StyleMap.empty : StyleMap := ⟨none, none, none, none, none, none, none⟩

/-- Backslash character. -/
def BS : Char := '\\'
/-- Newline character. -/
def NL : Char := '\n'
/-- Carriage-return character. -/
def CRc : Char := '\r'
/-- Tab character. -/
def TAB : Char := '\t'
/-- Double-quote character. -/
def DQ : Char := '"'
/-- Single-quote character (code point 39). -/
def SQ : Char := Char.ofNat 39
/-- Forward-slash character. -/
def SL : Char := '/'

/-- Substring test: does `p` occur contiguously inside `s`?  This models a
test of a literal JavaScript regular expression against a string. -/
def containsSub (p : List Char) : List Char → Bool
  | [] => p.isEmpty
  | c :: cs => p.isPrefixOf (c :: cs) || containsSub p cs

/-- Fuel-driven worker for `replaceAll`.  At each step it either rewrites a
match of `p` (consuming `p.length ≥ 1` characters) or copies one character,
so fuel `s.length` always suffices. -/
def replaceAllAux (p r : List Char) : Nat → List Char → List Char
  | _, [] => []
  | 0, s => s
  | fuel + 1, c :: cs =>
    if p.isPrefixOf (c :: cs) then
      r ++ replaceAllAux p r fuel (cs.drop (p.length - 1))
    else
      c :: replaceAllAux p r fuel cs

/-- `replaceAll p r s` rewrites every leftmost, non-overlapping occurrence of
the pattern `p` in `s` by `r`, resuming the scan after the replaced text.
This is the semantics of JavaScript `s.replace(/p/g, r)` for a literal
pattern `p`. -/
def replaceAll (p r s : List Char) : List Char :=
  replaceAllAux p r s.length s

/-- Number of leftmost, non-overlapping occurrences of `p` that
`replaceAll p r` rewrites in `s` (same scan, counting matches). -/
def countOccAux (p : List Char) : Nat → List Char → Nat
  | _, [] => 0
  | 0, _ => 0
  | fuel + 1, c :: cs =>
    if p.isPrefixOf (c :: cs) then
      1 + countOccAux p fuel (cs.drop (p.length - 1))
    else
      countOccAux p fuel cs

/-- Number of leftmost, non-overlapping occurrences of `p` in `s`. -/
def countOcc (p s : List Char) : Nat :=
  countOccAux p s.length s

/-- Number of occurrences of the character `c` in a list. -/
def countC (c : Char) : List Char → Nat
  | [] => 0
  | a :: t => (if a = c then 1 else 0) + countC c t

/-- `buildEscapeStyleMap` from the source: per special character, test the
double-escaped pattern first, then (only if the entry is still unset) the
single-escaped pattern.  The double-escaped quote test is the single regular
expression backslash-backslash-[quote-class], so it sets the entries of both
quote characters at once. -/
def buildEscapeStyleMap (s : List Char) : StyleMap :=
  let m := StyleMap.empty
  let m := if containsSub [BS, BS, 'n'] s then { m with nl := some .double } else m
  let m := if containsSub [BS, BS, 'r'] s then { m with cr := some .double } else m
  let m := if containsSub [BS, BS, 't'] s then { m with tab := some .double } else m
  let m := if containsSub [BS, BS, DQ] s || containsSub [BS, BS, SQ] s then
             { m with dq := some .double, sq := some .double } else m
  let m := if containsSub [BS, BS, BS, BS] s then { m with bs := some .double } else m
  let m := if containsSub [BS, BS, SL] s then { m with sl := some .double } else m
  let m := if m.nl = none ∧ containsSub [BS, 'n'] s then { m with nl := some .single } else m
  let m := if m.cr = none ∧ containsSub [BS, 'r'] s then { m with cr := some .single } else m
  let m := if m.tab = none ∧ containsSub [BS, 't'] s then { m with tab := some .single } else m
  let m := if m.dq = none ∧ containsSub [BS, DQ] s then { m with dq := some .single } else m
  let m := if m.sq = none ∧ containsSub [BS, SQ] s then { m with sq := some .single } else m
  let m := if m.bs = none ∧ containsSub [BS, BS] s then { m with bs := some .single } else m
  let m := if m.sl = none ∧ containsSub [BS, SL] s then { m with sl := some .single } else m
  m

/-- One style-dependent replacement step of `parseEscapeSequences`: apply the
double-escaped rewrite, the single-escaped rewrite, or nothing, according to
the style-map entry. -/
def styleStep (st : Option EscStyle) (pD rD pS rS s : List Char) : List Char :=
  match st with
  | some .double => replaceAll pD rD s
  | some .single => replaceAll pS rS s
  | none => s

/-- The no-context fallback of `parseEscapeSequences`: the fixed chain of
unconditional single-escape replacements, in the source's order n, t, r,
double quote, single quote, backslash, slash. -/
def fallbackChain (input : List Char) : List Char :=
  let r := replaceAll [BS, 'n'] [NL] input
  let r := replaceAll [BS, 't'] [TAB] r
  let r := replaceAll [BS, 'r'] [CRc] r
  let r := replaceAll [BS, DQ] [DQ] r
  let r := replaceAll [BS, SQ] [SQ] r
  let r := replaceAll [BS, BS] [BS] r
  let r := replaceAll [BS, SL] [SL] r
  r

/-- `parseEscapeSequences` from the source.  A backslash-free input is
returned unchanged.  With no original-string context, the fallback chain
runs.  With an original string, a style map is built from it and one
style-aware step runs per special character (order: newline, carriage
return, tab, slash, backslash, double quote, single quote). -/
def parseEscapeSequences (input : List Char) (original : Option (List Char)) : List Char :=
  if BS ∈ input then
    match original with
    | none => fallbackChain input
    | some orig =>
      let m := buildEscapeStyleMap orig
      let r := styleStep m.nl [BS, BS, 'n'] [BS, 'n'] [BS, 'n'] [NL] input
      let r := styleStep m.cr [BS, BS, 'r'] [BS, 'r'] [BS, 'r'] [CRc] r
      let r := styleStep m.tab [BS, BS, 't'] [BS, 't'] [BS, 't'] [TAB] r
      let r := styleStep m.sl [BS, BS, SL] [BS, SL] [BS, SL] [SL] r
      let r := styleStep m.bs [BS, BS, BS, BS] [BS, BS] [BS, BS] [BS] r
      let r := styleStep m.dq [BS, BS, DQ] [BS, DQ] [BS, DQ] [DQ] r
      let r := styleStep m.sq [BS, BS, SQ] [BS, SQ] [BS, SQ] [SQ] r
      r
  else input

/-- Style lookup `escapeMap[ch]` of the source: the map is keyed by the
actual special character. -/
def styleFor (m : StyleMap) (c : Char) : Option EscStyle :=
  if c = NL then m.nl
  else if c = CRc then m.cr
  else if c = TAB then m.tab
  else if c = DQ then m.dq
  else if c = SQ then m.sq
  else if c = BS then m.bs
  else if c = SL then m.sl
  else none

/-- The escaped text `multiLineToEscapedString` emits for one character,
given the per-character style resolved from the map (falling back to the
default style). -/
def encodeChar (style : EscStyle) (m : StyleMap) (ch : Char) : List Char :=
  let cs := (styleFor m ch).getD style
  if ch = NL then (if cs = .double then [BS, BS, 'n'] else [BS, 'n'])
  else if ch = CRc then (if cs = .double then [BS, BS, 'r'] else [BS, 'r'])
  else if ch = TAB then (if cs = .double then [BS, BS, 't'] else [BS, 't'])
  else if ch = DQ then (if cs = .double then [BS, BS, DQ] else [BS, DQ])
  else if ch = SQ then (if cs = .double then [BS, BS, SQ] else [BS, SQ])
  else if ch = BS then (if cs = .double then [BS, BS, BS, BS] else [BS, BS])
  else if ch = SL then (if cs = .double then [BS, BS, SL] else [BS, SL])
  else [ch]

/-- `multiLineToEscapedString` from the source: a left-to-right single pass
over the real characters, emitting each character's escaped form (or the
character itself when it is not special). -/
def multiLineToEscapedString (text : List Char) (style : EscStyle) (m : StyleMap) : List Char :=
  match text with
  | [] => []
  | ch :: rest => encodeChar style m ch ++ multiLineToEscapedString rest style m

/-- Worker of `isPositionInString`: scans the remaining characters `rest`
(the suffix of `line` starting at index `i`) carrying the in-string flag,
the opening-quote index `stringStart`, the active quote character and the
one-character escape flag, exactly as the source loop does. -/
def isPositionInStringAux (line : List Char) (pos : Nat) :
    Nat → List Char → Bool → Nat → Char → Bool → Option (Nat × Nat × List Char)
  | _, [], inString, stringStart, _, _ =>
    if inString ∧ pos > stringStart then
      some (stringStart + 1, line.length, line.drop (stringStart + 1))
    else
      none
  | i, c :: rest, inString, stringStart, quoteChar, escapeNext =>
    if escapeNext then
      isPositionInStringAux line pos (i + 1) rest inString stringStart quoteChar false
    else if c = BS then
      isPositionInStringAux line pos (i + 1) rest inString stringStart quoteChar true
    else if c = DQ ∨ c = SQ then
      if ¬ inString then
        isPositionInStringAux line pos (i + 1) rest true i c false
      else if c = quoteChar then
        if pos > stringStart ∧ pos < i then
          some (stringStart + 1, i, (line.drop (stringStart + 1)).take (i - (stringStart + 1)))
        else
          isPositionInStringAux line pos (i + 1) rest false 0 ' ' false
      else
        isPositionInStringAux line pos (i + 1) rest inString stringStart quoteChar false
    else
      isPositionInStringAux line pos (i + 1) rest inString stringStart quoteChar false

/-- `isPositionInString` from the source, restricted to the line text and
character offset it actually inspects.  A found result carries the range
(start, end) — the content between and excluding the quotes — and the
content itself. -/
def isPositionInString (line : List Char) (pos : Nat) : Option (Nat × Nat × List Char) :=
  isPositionInStringAux line pos 0 line false 0 ' ' false

/-- `lineText.indexOf(searchStr, start)` of the save handler: the least
index `i ≥ start` at which `pat` occurs in `hay`, if any. -/
def indexOfFromAux (hay pat : List Char) : Nat → Nat → Option Nat
  | 0, _ => none
  | fuel + 1, i =>
    if i ≤ hay.length ∧ pat.isPrefixOf (hay.drop i) then some i
    else if i ≥ hay.length then none
    else indexOfFromAux hay pat fuel (i + 1)

/-- First occurrence of `pat` in `hay` at index `≥ start` (JavaScript
`indexOf` with a from-index, for a non-empty search string). -/
def indexOfFrom (hay pat : List Char) (start : Nat) : Option Nat :=
  indexOfFromAux hay pat (hay.length + 1 - start) start

/-- Worker of the save-time re-resolution loop: repeatedly take the next
occurrence of `pat` from position `start` on and select the first one whose
inclusive character range contains `hover`. -/
def resolveStringRangeAux (hay pat : List Char) (hover : Nat) : Nat → Nat → Option (Nat × Nat)
  | 0, _ => none
  | fuel + 1, start =>
    match indexOfFrom hay pat start with
    | none => none
    | some i =>
      if hover ≥ i ∧ hover ≤ i + pat.length then some (i, i + pat.length)
      else resolveStringRangeAux hay pat hover fuel (i + 1)

/-- The save-handler search: scan the recorded line for the occurrence of
the recorded literal text whose character range contains the recorded
offset. -/
def resolveStringRange (hay pat : List Char) (hover : Nat) : Option (Nat × Nat) :=
  resolveStringRangeAux hay pat hover (hay.length + 2) 0

/-- Modelled from the spec: the claimed per-character inference rule — a
character is double-escaped when its own double-escaped pattern occurs,
else single-escaped when its own single-escaped pattern occurs, else
absent. -/
def claimCharStyle (pD pS s : List Char) : Option EscStyle :=
  if containsSub pD s then some .double
  else if containsSub pS s then some .single
  else none

/-- The six marker letters whose escape sequences decode to a real
character in the no-context fallback, plus backslash and slash handled
alike; used to state the fallback claims. -/
def isMarker (c : Char) : Bool :=
  c = 'n' || c = 't' || c = 'r' || c = DQ || c = SQ || c = BS || c = SL

/-- The real character a single-escaped sequence backslash-`c` decodes to. -/
def realOf (c : Char) : Char :=
  if c = 'n' then NL
  else if c = 't' then TAB
  else if c = 'r' then CRc
  else c

/-- Modelled from the spec: the fallback decode described by the claim — a
single left-to-right pass that treats every backslash-marker pair as a
single-escaped sequence and decodes it unconditionally. -/
def specFallbackDecode : List Char → List Char
  | [] => []
  | [c] => [c]
  | a :: c :: rest =>
    if a = BS then
      if isMarker c then realOf c :: specFallbackDecode rest
      else BS :: specFallbackDecode (c :: rest)
    else a :: specFallbackDecode (c :: rest)

/-- No two consecutive backslashes occur in the list. -/
def noDoubleBS : List Char → Prop
  | [] => True
  | [_] => True
  | a :: b :: t => ¬(a = BS ∧ b = BS) ∧ noDoubleBS (b :: t)

instance : DecidablePred noDoubleBS := by
  intro l
  induction l with
  | nil => exact isTrue trivial
  | cons a t ih =>
    cases t with
    | nil => exact isTrue trivial
    | cons b u =>
      unfold noDoubleBS
      exact instDecidableAnd

/-- Every one of the seven special characters that occurs as a raw character
of `l` has a non-absent entry in `m` (the hypothesis of the round-trip
claim). -/
def coversPresent (l : List Char) (m : StyleMap) : Prop :=
  (NL ∈ l → m.nl ≠ none) ∧ (CRc ∈ l → m.cr ≠ none) ∧ (TAB ∈ l → m.tab ≠ none) ∧
  (DQ ∈ l → m.dq ≠ none) ∧ (SQ ∈ l → m.sq ≠ none) ∧ (BS ∈ l → m.bs ≠ none) ∧
  (SL ∈ l → m.sl ≠ none)

instance (l : List Char) (m : StyleMap) : Decidable (coversPresent l m) := by
  unfold coversPresent
  infer_instance

/-! ## Infrastructure lemmas -/

theorem isPrefixOf_exists {p s : List Char} :
    p.isPrefixOf s = true ↔ ∃ t, s = p ++ t := by
  induction p generalizing s with
  | nil =>
    simp [List.isPrefixOf]
  | cons a as ih =>
    cases s with
    | nil =>
      simp [List.isPrefixOf]
    | cons b bs =>
      simp only [List.isPrefixOf, Bool.and_eq_true, beq_iff_eq, ih, List.cons_append,
        List.cons.injEq]
      constructor
      · rintro ⟨rfl, t, rfl⟩
        exact ⟨t, rfl, rfl⟩
      · rintro ⟨t, rfl, rfl⟩
        exact ⟨rfl, t, rfl⟩

theorem replaceAllAux_nil (p r : List Char) (f : Nat) : replaceAllAux p r f [] = [] := by
  cases f <;> rfl

theorem countOccAux_nil (p : List Char) (f : Nat) : countOccAux p f [] = 0 := by
  cases f <;> rfl

theorem replaceAllAux_congr (p r : List Char) :
    ∀ f g s, s.length ≤ f → s.length ≤ g → replaceAllAux p r f s = replaceAllAux p r g s := by
  intro f
  induction f with
  | zero =>
    intro g s hf _
    have : s = [] := List.length_eq_zero.mp (Nat.le_zero.mp hf)
    subst this
    rw [replaceAllAux_nil, replaceAllAux_nil]
  | succ f ih =>
    intro g s hf hg
    cases s with
    | nil => rw [replaceAllAux_nil, replaceAllAux_nil]
    | cons c cs =>
      cases g with
      | zero => exact absurd hg (by simp)
      | succ g =>
        show (if p.isPrefixOf (c :: cs) then _ else _) = (if p.isPrefixOf (c :: cs) then _ else _)
        by_cases h : p.isPrefixOf (c :: cs)
        · rw [if_pos h, if_pos h]
          have hlen : (cs.drop (p.length - 1)).length ≤ cs.length := by
            simp [Nat.sub_le]
          exact congrArg (r ++ ·) (ih g _ (Nat.le_trans hlen (Nat.le_of_succ_le_succ hf))
            (Nat.le_trans hlen (Nat.le_of_succ_le_succ hg)))
        · rw [if_neg h, if_neg h]
          exact congrArg (c :: ·) (ih g cs (Nat.le_of_succ_le_succ hf) (Nat.le_of_succ_le_succ hg))

theorem countOccAux_congr (p : List Char) :
    ∀ f g s, s.length ≤ f → s.length ≤ g → countOccAux p f s = countOccAux p g s := by
  intro f
  induction f with
  | zero =>
    intro g s hf _
    have : s = [] := List.length_eq_zero.mp (Nat.le_zero.mp hf)
    subst this
    rw [countOccAux_nil, countOccAux_nil]
  | succ f ih =>
    intro g s hf hg
    cases s with
    | nil => rw [countOccAux_nil, countOccAux_nil]
    | cons c cs =>
      cases g with
      | zero => exact absurd hg (by simp)
      | succ g =>
        show (if p.isPrefixOf (c :: cs) then _ else _) = (if p.isPrefixOf (c :: cs) then _ else _)
        by_cases h : p.isPrefixOf (c :: cs)
        · rw [if_pos h, if_pos h]
          have hlen : (cs.drop (p.length - 1)).length ≤ cs.length := by
            simp [Nat.sub_le]
          exact congrArg (1 + ·) (ih g _ (Nat.le_trans hlen (Nat.le_of_succ_le_succ hf))
            (Nat.le_trans hlen (Nat.le_of_succ_le_succ hg)))
        · rw [if_neg h, if_neg h]
          exact ih g cs (Nat.le_of_succ_le_succ hf) (Nat.le_of_succ_le_succ hg)

theorem replaceAll_nil (p r : List Char) : replaceAll p r [] = [] := rfl

theorem countOcc_nil (p : List Char) : countOcc p [] = 0 := rfl

theorem replaceAll_cons_pos {p : List Char} (r : List Char) {c : Char} {cs : List Char}
    (h : p.isPrefixOf (c :: cs) = true) :
    replaceAll p r (c :: cs) = r ++ replaceAll p r (cs.drop (p.length - 1)) := by
  show replaceAllAux p r (cs.length + 1) (c :: cs) = _
  rw [show replaceAllAux p r (cs.length + 1) (c :: cs) =
      if p.isPrefixOf (c :: cs) then r ++ replaceAllAux p r cs.length (cs.drop (p.length - 1))
      else c :: replaceAllAux p r cs.length cs from rfl]
  rw [if_pos h]
  exact congrArg (r ++ ·) (replaceAllAux_congr p r _ _ _ (by simp [Nat.sub_le]) (Nat.le_refl _))

theorem replaceAll_cons_neg {p : List Char} (r : List Char) {c : Char} {cs : List Char}
    (h : ¬ p.isPrefixOf (c :: cs) = true) :
    replaceAll p r (c :: cs) = c :: replaceAll p r cs := by
  show replaceAllAux p r (cs.length + 1) (c :: cs) = _
  rw [show replaceAllAux p r (cs.length + 1) (c :: cs) =
      if p.isPrefixOf (c :: cs) then r ++ replaceAllAux p r cs.length (cs.drop (p.length - 1))
      else c :: replaceAllAux p r cs.length cs from rfl]
  rw [if_neg h]
  rfl

theorem countOcc_cons_pos {p : List Char} {c : Char} {cs : List Char}
    (h : p.isPrefixOf (c :: cs) = true) :
    countOcc p (c :: cs) = 1 + countOcc p (cs.drop (p.length - 1)) := by
  show countOccAux p (cs.length + 1) (c :: cs) = _
  rw [show countOccAux p (cs.length + 1) (c :: cs) =
      if p.isPrefixOf (c :: cs) then 1 + countOccAux p cs.length (cs.drop (p.length - 1))
      else countOccAux p cs.length cs from rfl]
  rw [if_pos h]
  exact congrArg (1 + ·) (countOccAux_congr p _ _ _ (by simp [Nat.sub_le]) (Nat.le_refl _))

theorem countOcc_cons_neg {p : List Char} {c : Char} {cs : List Char}
    (h : ¬ p.isPrefixOf (c :: cs) = true) :
    countOcc p (c :: cs) = countOcc p cs := by
  show countOccAux p (cs.length + 1) (c :: cs) = _
  rw [show countOccAux p (cs.length + 1) (c :: cs) =
      if p.isPrefixOf (c :: cs) then 1 + countOccAux p cs.length (cs.drop (p.length - 1))
      else countOccAux p cs.length cs from rfl]
  rw [if_neg h]
  rfl

theorem countC_nil (c : Char) : countC c [] = 0 := rfl

theorem countC_cons (c a : Char) (t : List Char) :
    countC c (a :: t) = (if a = c then 1 else 0) + countC c t := rfl

theorem countC_append (c : Char) (u v : List Char) :
    countC c (u ++ v) = countC c u + countC c v := by
  induction u with
  | nil => simp [countC]
  | cons a t ih => simp [countC, ih, Nat.add_assoc]

theorem countC_eq_zero_of_not_mem {c : Char} {l : List Char} (h : c ∉ l) :
    countC c l = 0 := by
  induction l with
  | nil => rfl
  | cons a t ih =>
    rw [List.mem_cons] at h
    push_neg at h
    obtain ⟨h1, h2⟩ := h
    rw [countC_cons, if_neg (fun e => h1 e.symm), ih h2]

theorem count_replaceAll (p r : List Char) (hp : p ≠ []) {c : Char} (hc : c ∉ p) :
    ∀ s, countC c (replaceAll p r s) = countC c s + countOcc p s * countC c r := by
  suffices H : ∀ n s, s.length ≤ n →
      countC c (replaceAll p r s) = countC c s + countOcc p s * countC c r by
    intro s
    exact H s.length s (Nat.le_refl _)
  intro n
  induction n with
  | zero =>
    intro s hs
    have : s = [] := List.length_eq_zero.mp (Nat.le_zero.mp hs)
    subst this
    simp [replaceAll_nil, countOcc_nil, countC_nil]
  | succ n ih =>
    intro s hs
    cases s with
    | nil => simp [replaceAll_nil, countOcc_nil, countC_nil]
    | cons a as =>
      simp only [List.length_cons] at hs
      by_cases h : p.isPrefixOf (a :: as) = true
      · rw [replaceAll_cons_pos r h, countOcc_cons_pos h, countC_append]
        obtain ⟨t, ht⟩ := isPrefixOf_exists.mp h
        have hdrop : as.drop (p.length - 1) = t := by
          cases p with
          | nil => exact absurd rfl hp
          | cons q qs =>
            simp only [List.cons_append] at ht
            injection ht with h1 h2
            rw [h2]
            simp [List.drop_left]
        rw [hdrop]
        have hlen : (a :: as).length = p.length + t.length := by
          rw [ht]
          simp [List.length_append]
        have hp1 : 1 ≤ p.length := by
          cases p with
          | nil => exact absurd rfl hp
          | cons q qs => simp
        simp only [List.length_cons] at hlen
        have hlt : t.length ≤ n := by omega
        rw [ih t hlt]
        have hcs : countC c (a :: as) = countC c t := by
          rw [ht, countC_append, countC_eq_zero_of_not_mem hc, Nat.zero_add]
        rw [hcs]
        ring
      · rw [replaceAll_cons_neg r h, countOcc_cons_neg h, countC_cons, countC_cons,
          ih as (Nat.le_of_succ_le_succ hs)]
        ring

theorem containsSub_iff {p s : List Char} :
    containsSub p s = true ↔ ∃ u v, s = u ++ p ++ v := by
  induction s with
  | nil =>
    constructor
    · intro h
      have hp : p = [] := by
        cases p with
        | nil => rfl
        | cons q qs => exact absurd h (by simp [containsSub, List.isEmpty])
      exact ⟨[], [], by simp [hp]⟩
    · rintro ⟨u, v, huv⟩
      have : u ++ p ++ v = [] := huv.symm
      rw [List.append_eq_nil] at this
      obtain ⟨hup, hv⟩ := this
      rw [List.append_eq_nil] at hup
      simp [containsSub, hup.2, List.isEmpty]
  | cons a t ih =>
    simp only [containsSub, Bool.or_eq_true, ih]
    constructor
    · rintro (h | ⟨u, v, rfl⟩)
      · obtain ⟨w, hw⟩ := isPrefixOf_exists.mp h
        exact ⟨[], w, by simpa using hw⟩
      · exact ⟨a :: u, v, by simp⟩
    · rintro ⟨u, v, huv⟩
      cases u with
      | nil =>
        exact Or.inl (isPrefixOf_exists.mpr ⟨v, by simpa using huv⟩)
      | cons b bu =>
        simp only [List.cons_append] at huv
        injection huv with h1 h2
        exact Or.inr ⟨bu, v, h2⟩

theorem mem_of_containsSub {p s : List Char} (h : containsSub p s = true) {c : Char}
    (hc : c ∈ p) : c ∈ s := by
  obtain ⟨u, v, rfl⟩ := containsSub_iff.mp h
  simp [hc]

/-! ## Closed forms for the style-map fields -/

theorem bem_nl (s : List Char) :
    (buildEscapeStyleMap s).nl = claimCharStyle [BS, BS, 'n'] [BS, 'n'] s := by
  unfold buildEscapeStyleMap claimCharStyle
  by_cases h1 : containsSub [BS, BS, 'n'] s <;>
  by_cases h2 : containsSub [BS, 'n'] s <;>
    simp [h1, h2, StyleMap.empty, apply_ite (StyleMap.nl)]

theorem bem_cr (s : List Char) :
    (buildEscapeStyleMap s).cr = claimCharStyle [BS, BS, 'r'] [BS, 'r'] s := by
  unfold buildEscapeStyleMap claimCharStyle
  by_cases h1 : containsSub [BS, BS, 'r'] s <;>
  by_cases h2 : containsSub [BS, 'r'] s <;>
    simp [h1, h2, StyleMap.empty, apply_ite (StyleMap.cr)]

theorem bem_tab (s : List Char) :
    (buildEscapeStyleMap s).tab = claimCharStyle [BS, BS, 't'] [BS, 't'] s := by
  unfold buildEscapeStyleMap claimCharStyle
  by_cases h1 : containsSub [BS, BS, 't'] s <;>
  by_cases h2 : containsSub [BS, 't'] s <;>
    simp [h1, h2, StyleMap.empty, apply_ite (StyleMap.tab)]

theorem bem_bs (s : List Char) :
    (buildEscapeStyleMap s).bs = claimCharStyle [BS, BS, BS, BS] [BS, BS] s := by
  unfold buildEscapeStyleMap claimCharStyle
  by_cases h1 : containsSub [BS, BS, BS, BS] s <;>
  by_cases h2 : containsSub [BS, BS] s <;>
    simp [h1, h2, StyleMap.empty, apply_ite (StyleMap.bs)]

theorem bem_sl (s : List Char) :
    (buildEscapeStyleMap s).sl = claimCharStyle [BS, BS, SL] [BS, SL] s := by
  unfold buildEscapeStyleMap claimCharStyle
  by_cases h1 : containsSub [BS, BS, SL] s <;>
  by_cases h2 : containsSub [BS, SL] s <;>
    simp [h1, h2, StyleMap.empty, apply_ite (StyleMap.sl)]

theorem bem_dq (s : List Char) :
    (buildEscapeStyleMap s).dq =
      (if containsSub [BS, BS, DQ] s || containsSub [BS, BS, SQ] s then some EscStyle.double
       else if containsSub [BS, DQ] s then some EscStyle.single else none) := by
  unfold buildEscapeStyleMap
  by_cases h1 : containsSub [BS, BS, DQ] s || containsSub [BS, BS, SQ] s <;>
  by_cases h2 : containsSub [BS, DQ] s <;>
    simp [h1, h2, StyleMap.empty, apply_ite (StyleMap.dq)]

theorem bem_sq (s : List Char) :
    (buildEscapeStyleMap s).sq =
      (if containsSub [BS, BS, DQ] s || containsSub [BS, BS, SQ] s then some EscStyle.double
       else if containsSub [BS, SQ] s then some EscStyle.single else none) := by
  unfold buildEscapeStyleMap
  by_cases h1 : containsSub [BS, BS, DQ] s || containsSub [BS, BS, SQ] s <;>
  by_cases h2 : containsSub [BS, SQ] s <;>
    simp [h1, h2, StyleMap.empty, apply_ite (StyleMap.sq)]

theorem countC_styleStep (st : Option EscStyle) (pD rD pS rS : List Char)
    (hpD : pD ≠ []) (hpS : pS ≠ []) {c : Char}
    (h1 : c ∉ pD) (h2 : c ∉ rD) (h3 : c ∉ pS) (h4 : c ∉ rS) (s : List Char) :
    countC c (styleStep st pD rD pS rS s) = countC c s := by
  cases st with
  | none => rfl
  | some st =>
    cases st with
    | double =>
      show countC c (replaceAll pD rD s) = countC c s
      rw [count_replaceAll pD rD hpD h1 s, countC_eq_zero_of_not_mem h2,
        Nat.mul_zero, Nat.add_zero]
    | single =>
      show countC c (replaceAll pS rS s) = countC c s
      rw [count_replaceAll pS rS hpS h3 s, countC_eq_zero_of_not_mem h4,
        Nat.mul_zero, Nat.add_zero]

theorem parse_some (input orig : List Char) (h : BS ∈ input) :
    parseEscapeSequences input (some orig) =
      styleStep (buildEscapeStyleMap orig).sq [BS, BS, SQ] [BS, SQ] [BS, SQ] [SQ]
        (styleStep (buildEscapeStyleMap orig).dq [BS, BS, DQ] [BS, DQ] [BS, DQ] [DQ]
          (styleStep (buildEscapeStyleMap orig).bs [BS, BS, BS, BS] [BS, BS] [BS, BS] [BS]
            (styleStep (buildEscapeStyleMap orig).sl [BS, BS, SL] [BS, SL] [BS, SL] [SL]
              (styleStep (buildEscapeStyleMap orig).tab [BS, BS, 't'] [BS, 't'] [BS, 't'] [TAB]
                (styleStep (buildEscapeStyleMap orig).cr [BS, BS, 'r'] [BS, 'r'] [BS, 'r'] [CRc]
                  (styleStep (buildEscapeStyleMap orig).nl [BS, BS, 'n'] [BS, 'n'] [BS, 'n'] [NL]
                    input)))))) := by
  simp [parseEscapeSequences, h]

/-! ## Claim theorems -/

/-- C1.  The round-trip law fails on the code: for the literal consisting of
four backslash characters (a double-escaped backslash pair), every special
character present has a non-absent style-map entry, decode yields two
backslashes, but re-encoding yields eight backslashes — not the original
four — under either default style.  The encode function's own documentation
calls it the inverse of the decode, so the code contradicts its stated
contract at this input. -/
theorem C1_roundtrip_fails_on_double_escaped_backslash :
    coversPresent [BS, BS, BS, BS] (buildEscapeStyleMap [BS, BS, BS, BS]) ∧
    (buildEscapeStyleMap [BS, BS, BS, BS]).bs = some EscStyle.double ∧
    parseEscapeSequences [BS, BS, BS, BS] (some [BS, BS, BS, BS]) = [BS, BS] ∧
    multiLineToEscapedString
      (parseEscapeSequences [BS, BS, BS, BS] (some [BS, BS, BS, BS]))
      EscStyle.single (buildEscapeStyleMap [BS, BS, BS, BS]) =
      [BS, BS, BS, BS, BS, BS, BS, BS] ∧
    multiLineToEscapedString
      (parseEscapeSequences [BS, BS, BS, BS] (some [BS, BS, BS, BS]))
      EscStyle.single (buildEscapeStyleMap [BS, BS, BS, BS]) ≠ [BS, BS, BS, BS] ∧
    multiLineToEscapedString
      (parseEscapeSequences [BS, BS, BS, BS] (some [BS, BS, BS, BS]))
      EscStyle.double (buildEscapeStyleMap [BS, BS, BS, BS]) ≠ [BS, BS, BS, BS] := by
  decide

/-- C2.  Style independence of decode: whenever the style map inferred from
the literal classifies newline single-escaped and tab double-escaped, decode
turns exactly the backslash-n occurrences into real newline characters
(the real-newline count grows by the number of backslash-n occurrences) and
creates no real tab character (the real-tab count is unchanged, so every
backslash-backslash-t stays literal text).  On the exemplar literal
a\n b\\t c the decode produces a real newline and the literal two-character
text backslash-t. -/
theorem C2_style_independence_of_decode :
    (∀ L, (buildEscapeStyleMap L).nl = some EscStyle.single →
        (buildEscapeStyleMap L).tab = some EscStyle.double →
        countC NL (parseEscapeSequences L (some L)) = countC NL L + countOcc [BS, 'n'] L ∧
        countC TAB (parseEscapeSequences L (some L)) = countC TAB L) ∧
    parseEscapeSequences ['a', BS, 'n', 'b', BS, BS, 't', 'c']
      (some ['a', BS, 'n', 'b', BS, BS, 't', 'c']) = ['a', NL, 'b', BS, 't', 'c'] := by
  constructor
  · intro L h1 h2
    have hnl : containsSub [BS, 'n'] L = true := by
      rw [bem_nl, claimCharStyle] at h1
      by_cases hc1 : containsSub [BS, BS, 'n'] L = true
      · simp [hc1] at h1
      · by_cases hc2 : containsSub [BS, 'n'] L = true
        · exact hc2
        · simp [hc1, hc2] at h1
    have hBS : BS ∈ L := mem_of_containsSub hnl (by simp)
    rw [parse_some L L hBS]
    constructor
    · rw [countC_styleStep _ _ _ _ _ (by simp) (by simp) (by decide) (by decide) (by decide)
          (by decide),
        countC_styleStep _ _ _ _ _ (by simp) (by simp) (by decide) (by decide) (by decide)
          (by decide),
        countC_styleStep _ _ _ _ _ (by simp) (by simp) (by decide) (by decide) (by decide)
          (by decide),
        countC_styleStep _ _ _ _ _ (by simp) (by simp) (by decide) (by decide) (by decide)
          (by decide),
        countC_styleStep _ _ _ _ _ (by simp) (by simp) (by decide) (by decide) (by decide)
          (by decide),
        countC_styleStep _ _ _ _ _ (by simp) (by simp) (by decide) (by decide) (by decide)
          (by decide),
        h1]
      show countC NL (replaceAll [BS, 'n'] [NL] L) = _
      rw [count_replaceAll [BS, 'n'] [NL] (by simp) (by decide) L]
      have : countC NL [NL] = 1 := by decide
      rw [this, Nat.mul_one]
    · rw [countC_styleStep _ _ _ _ _ (by simp) (by simp) (by decide) (by decide) (by decide)
          (by decide),
        countC_styleStep _ _ _ _ _ (by simp) (by simp) (by decide) (by decide) (by decide)
          (by decide),
        countC_styleStep _ _ _ _ _ (by simp) (by simp) (by decide) (by decide) (by decide)
          (by decide),
        countC_styleStep _ _ _ _ _ (by simp) (by simp) (by decide) (by decide) (by decide)
          (by decide),
        h2]
      show countC TAB (replaceAll [BS, BS, 't'] [BS, 't']
        (styleStep (buildEscapeStyleMap L).cr [BS, BS, 'r'] [BS, 'r'] [BS, 'r'] [CRc]
          (styleStep (buildEscapeStyleMap L).nl [BS, BS, 'n'] [BS, 'n'] [BS, 'n'] [NL] L))) = _
      rw [count_replaceAll [BS, BS, 't'] [BS, 't'] (by simp)
          (show TAB ∉ [BS, BS, 't'] by decide)]
      have hz : countC TAB [BS, 't'] = 0 := by decide
      rw [hz, Nat.mul_zero, Nat.add_zero,
        countC_styleStep _ _ _ _ _ (by simp) (by simp) (by decide) (by decide) (by decide)
          (by decide),
        countC_styleStep _ _ _ _ _ (by simp) (by simp) (by decide) (by decide) (by decide)
          (by decide)]
  · decide

/-- Witness for C2: the exemplar literal satisfies both hypotheses and the
count conclusions hold there. -/
theorem C2_witness :
    (buildEscapeStyleMap ['a', BS, 'n', 'b', BS, BS, 't', 'c']).nl = some EscStyle.single ∧
    (buildEscapeStyleMap ['a', BS, 'n', 'b', BS, BS, 't', 'c']).tab = some EscStyle.double ∧
    (countC NL (parseEscapeSequences ['a', BS, 'n', 'b', BS, BS, 't', 'c']
        (some ['a', BS, 'n', 'b', BS, BS, 't', 'c'])) =
      countC NL ['a', BS, 'n', 'b', BS, BS, 't', 'c'] +
        countOcc [BS, 'n'] ['a', BS, 'n', 'b', BS, BS, 't', 'c'] ∧
     countC TAB (parseEscapeSequences ['a', BS, 'n', 'b', BS, BS, 't', 'c']
        (some ['a', BS, 'n', 'b', BS, BS, 't', 'c'])) =
      countC TAB ['a', BS, 'n', 'b', BS, BS, 't', 'c']) :=
  ⟨by decide, by decide,
    C2_style_independence_of_decode.1 ['a', BS, 'n', 'b', BS, BS, 't', 'c']
      (by decide) (by decide)⟩

/-- C3.  The no-backslash fast path: an input with no backslash character is
returned unchanged by the decode, whatever the original/style-map context
argument is. -/
theorem C3_no_backslash_identity (input : List Char) (original : Option (List Char))
    (h : BS ∉ input) : parseEscapeSequences input original = input := by
  unfold parseEscapeSequences
  rw [if_neg h]

/-- Witness for C3: a concrete backslash-free input is returned unchanged. -/
theorem C3_witness :
    (BS ∉ (['a', 'b'] : List Char)) ∧ parseEscapeSequences ['a', 'b'] none = ['a', 'b'] :=
  ⟨by decide, C3_no_backslash_identity ['a', 'b'] none (by decide)⟩

/-- Counterexample for C4: on the literal backslash-backslash-quote'
backslash-quote" the inferencer classifies the double quote double-escaped
although the double quote's own double-escaped pattern never occurs (only
its single-escaped pattern does) — the classification of the double quote
depends on the single quote's pattern, contradicting the claimed
per-character independence. -/
theorem C4_counterexample :
    (buildEscapeStyleMap [BS, BS, SQ, BS, DQ]).dq = some EscStyle.double ∧
    claimCharStyle [BS, BS, DQ] [BS, DQ] [BS, BS, SQ, BS, DQ] = some EscStyle.single ∧
    (buildEscapeStyleMap [BS, BS, SQ, BS, DQ]).dq ≠
      claimCharStyle [BS, BS, DQ] [BS, DQ] [BS, BS, SQ, BS, DQ] := by
  decide

/-- C4 as amended: newline, carriage return, tab, backslash and slash are
each classified independently by the double-then-single precedence on their
own patterns; the two quote characters share the double-escaped trigger —
if either backslash-backslash-quote pattern occurs, both quotes are marked
double-escaped — and otherwise each quote falls back to its own
single-escaped pattern, else absent. -/
theorem C4_inference_rules (s : List Char) :
    (buildEscapeStyleMap s).nl = claimCharStyle [BS, BS, 'n'] [BS, 'n'] s ∧
    (buildEscapeStyleMap s).cr = claimCharStyle [BS, BS, 'r'] [BS, 'r'] s ∧
    (buildEscapeStyleMap s).tab = claimCharStyle [BS, BS, 't'] [BS, 't'] s ∧
    (buildEscapeStyleMap s).bs = claimCharStyle [BS, BS, BS, BS] [BS, BS] s ∧
    (buildEscapeStyleMap s).sl = claimCharStyle [BS, BS, SL] [BS, SL] s ∧
    (buildEscapeStyleMap s).dq =
      (if containsSub [BS, BS, DQ] s || containsSub [BS, BS, SQ] s then some EscStyle.double
       else if containsSub [BS, DQ] s then some EscStyle.single else none) ∧
    (buildEscapeStyleMap s).sq =
      (if containsSub [BS, BS, DQ] s || containsSub [BS, BS, SQ] s then some EscStyle.double
       else if containsSub [BS, SQ] s then some EscStyle.single else none) :=
  ⟨bem_nl s, bem_cr s, bem_tab s, bem_bs s, bem_sl s, bem_dq s, bem_sq s⟩

/-- C5.  Whenever the inferencer classifies backslash single-escaped, the
literal contains a backslash not immediately followed by any of the six
other markers (n, r, t, double quote, single quote, slash); and the
particular literal a backslash-n b gets no backslash entry at all. -/
theorem C5_backslash_guard :
    (∀ s, (buildEscapeStyleMap s).bs = some EscStyle.single →
        ∃ i, s.get? i = some BS ∧
          s.get? (i + 1) ≠ some 'n' ∧ s.get? (i + 1) ≠ some 'r' ∧
          s.get? (i + 1) ≠ some 't' ∧ s.get? (i + 1) ≠ some DQ ∧
          s.get? (i + 1) ≠ some SQ ∧ s.get? (i + 1) ≠ some SL) ∧
    (buildEscapeStyleMap ['a', BS, 'n', 'b']).bs = none := by
  constructor
  · intro s h
    rw [bem_bs, claimCharStyle] at h
    by_cases h4 : containsSub [BS, BS, BS, BS] s = true
    · simp [h4] at h
    · by_cases h2 : containsSub [BS, BS] s = true
      · obtain ⟨u, v, rfl⟩ := containsSub_iff.mp h2
        rw [List.append_assoc]
        refine ⟨u.length, ?_, ?_, ?_, ?_, ?_, ?_, ?_⟩ <;>
          rw [List.get?_append_right (by omega)]
        · simp
        all_goals
          simp
          decide
      · simp [h4, h2] at h
  · decide

/-- Witness for C5: the two-backslash literal is classified single-escaped
and exhibits a backslash not followed by any of the six markers. -/
theorem C5_witness :
    (buildEscapeStyleMap [BS, BS]).bs = some EscStyle.single ∧
    (∃ i, ([BS, BS] : List Char).get? i = some BS ∧
      ([BS, BS] : List Char).get? (i + 1) ≠ some 'n' ∧
      ([BS, BS] : List Char).get? (i + 1) ≠ some 'r' ∧
      ([BS, BS] : List Char).get? (i + 1) ≠ some 't' ∧
      ([BS, BS] : List Char).get? (i + 1) ≠ some DQ ∧
      ([BS, BS] : List Char).get? (i + 1) ≠ some SQ ∧
      ([BS, BS] : List Char).get? (i + 1) ≠ some SL) :=
  ⟨by decide, C5_backslash_guard.1 [BS, BS] (by decide)⟩

theorem ipis_dq_pair (p : Nat) : isPositionInString [DQ, DQ] p = none := by
  simp only [isPositionInString, isPositionInStringAux]
  norm_num [DQ, SQ, BS]
  intro h
  rw [if_neg h, if_neg (by omega)]

theorem ipis_sq_pair (p : Nat) : isPositionInString [SQ, SQ] p = none := by
  simp only [isPositionInString, isPositionInStringAux]
  norm_num [DQ, SQ, BS]
  intro h
  rw [if_neg h, if_neg (by omega)]

/-- Counterexample for C9: on the line consisting of a double quote
immediately followed by another double quote, the locator returns not-found
at every offset — no offset yields the claimed zero-length literal, because
no offset lies strictly between two adjacent quote positions. -/
theorem C9_counterexample : ¬ ∃ p r, isPositionInString [DQ, DQ] p = some r := by
  rintro ⟨p, r, hr⟩
  rw [ipis_dq_pair p] at hr
  exact Option.noConfusion hr

/-- C9 as amended: a quote immediately followed by the same quote character
never yields the zero-length literal: the strictly-between offset check
cannot be satisfied across a zero-width span, so the locator reports
not-found at every offset for the adjacent-quote line (for either quote
character). -/
theorem C9_zero_length_literal_unreachable (p : Nat) :
    isPositionInString [DQ, DQ] p = none ∧ isPositionInString [SQ, SQ] p = none :=
  ⟨ipis_dq_pair p, ipis_sq_pair p⟩

theorem encodeChar_no_ctrl (style : EscStyle) (m : StyleMap) (ch : Char) :
    NL ∉ encodeChar style m ch ∧ CRc ∉ encodeChar style m ch ∧ TAB ∉ encodeChar style m ch := by
  unfold encodeChar
  split_ifs <;> try simp_all
  all_goals try exact ⟨fun e => ‹¬_ = NL› e.symm, fun e => ‹¬_ = CRc› e.symm,
    fun e => ‹¬_ = TAB› e.symm⟩
  all_goals split <;> decide

/-- C10.  Single-line invariant of the encoder: whatever the input text, the
default style and the style map, the encoded output contains no raw
newline, carriage-return or tab character — every such character is emitted
in an escaped form. -/
theorem C10_encode_output_single_line (text : List Char) (style : EscStyle) (m : StyleMap) :
    NL ∉ multiLineToEscapedString text style m ∧
    CRc ∉ multiLineToEscapedString text style m ∧
    TAB ∉ multiLineToEscapedString text style m := by
  induction text with
  | nil => exact ⟨by simp [multiLineToEscapedString], by simp [multiLineToEscapedString],
      by simp [multiLineToEscapedString]⟩
  | cons a t ih =>
    obtain ⟨e1, e2, e3⟩ := encodeChar_no_ctrl style m a
    obtain ⟨i1, i2, i3⟩ := ih
    refine ⟨?_, ?_, ?_⟩ <;> intro hmem <;>
      rcases List.mem_append.mp hmem with h | h
    · exact e1 h
    · exact i1 h
    · exact e2 h
    · exact i2 h
    · exact e3 h
    · exact i3 h

theorem indexOfFromAux_some {hay pat : List Char} :
    ∀ f i j, indexOfFromAux hay pat f i = some j →
      i ≤ j ∧ pat.isPrefixOf (hay.drop j) = true := by
  intro f
  induction f with
  | zero =>
    intro i j h
    exact absurd h (by simp [indexOfFromAux])
  | succ f ih =>
    intro i j h
    unfold indexOfFromAux at h
    by_cases h1 : i ≤ hay.length ∧ pat.isPrefixOf (hay.drop i) = true
    · rw [if_pos h1] at h
      injection h with h'
      subst h'
      exact ⟨Nat.le_refl _, h1.2⟩
    · rw [if_neg h1] at h
      by_cases h2 : i ≥ hay.length
      · rw [if_pos h2] at h
        cases h
      · rw [if_neg h2] at h
        obtain ⟨hij, hpre⟩ := ih (i + 1) j h
        exact ⟨Nat.le_trans (Nat.le_succ i) hij, hpre⟩

theorem resolveStringRangeAux_some {hay pat : List Char} {hover : Nat} :
    ∀ f start s e, resolveStringRangeAux hay pat hover f start = some (s, e) →
      pat.isPrefixOf (hay.drop s) = true ∧ s ≤ hover ∧ hover ≤ e ∧ e = s + pat.length := by
  intro f
  induction f with
  | zero =>
    intro start s e h
    exact absurd h (by simp [resolveStringRangeAux])
  | succ f ih =>
    intro start s e h
    unfold resolveStringRangeAux at h
    cases hidx : indexOfFrom hay pat start with
    | none =>
      rw [hidx] at h
      cases h
    | some i =>
      rw [hidx] at h
      have h2 : (if hover ≥ i ∧ hover ≤ i + pat.length then some (i, i + pat.length)
          else resolveStringRangeAux hay pat hover f (i + 1)) = some (s, e) := h
      by_cases hr : hover ≥ i ∧ hover ≤ i + pat.length
      · rw [if_pos hr] at h2
        have h' := Option.some.inj h2
        have hs : i = s := congrArg Prod.fst h'
        have he : i + pat.length = e := congrArg Prod.snd h'
        subst hs
        subst he
        exact ⟨(indexOfFromAux_some _ _ _ hidx).2, hr.1, hr.2, rfl⟩
      · rw [if_neg hr] at h2
        exact ih (i + 1) s e h2

/-- C8.  The save-time re-resolution search only ever returns an occurrence
of the recorded literal text whose inclusive character range contains the
recorded offset; on the line f("ab"); g("ab"); with offset 13 (inside the
second "ab") it selects the second occurrence's range (12, 14) even though
the first textual match is at index 3. -/
theorem C8_offset_selects_occurrence :
    (∀ hay pat hover s e, resolveStringRange hay pat hover = some (s, e) →
        pat.isPrefixOf (hay.drop s) = true ∧ s ≤ hover ∧ hover ≤ e ∧ e = s + pat.length) ∧
    resolveStringRange
      ['f', '(', DQ, 'a', 'b', DQ, ')', ';', ' ', 'g', '(', DQ, 'a', 'b', DQ, ')', ';']
      ['a', 'b'] 13 = some (12, 14) ∧
    indexOfFrom
      ['f', '(', DQ, 'a', 'b', DQ, ')', ';', ' ', 'g', '(', DQ, 'a', 'b', DQ, ')', ';']
      ['a', 'b'] 0 = some 3 := by
  refine ⟨?_, by decide, by decide⟩
  intro hay pat hover s e h
  exact resolveStringRangeAux_some _ _ _ _ h

/-- Witness for C8: the general range property instantiated on the
two-occurrence line at offset 13. -/
theorem C8_witness :
    resolveStringRange
      ['f', '(', DQ, 'a', 'b', DQ, ')', ';', ' ', 'g', '(', DQ, 'a', 'b', DQ, ')', ';']
      ['a', 'b'] 13 = some (12, 14) ∧
    ((['a', 'b'] : List Char).isPrefixOf
      ((['f', '(', DQ, 'a', 'b', DQ, ')', ';', ' ', 'g', '(', DQ, 'a', 'b', DQ, ')', ';'] :
        List Char).drop 12) = true ∧
     12 ≤ 13 ∧ 13 ≤ 14 ∧ 14 = 12 + (['a', 'b'] : List Char).length) :=
  ⟨by decide,
    C8_offset_selects_occurrence.1
      ['f', '(', DQ, 'a', 'b', DQ, ')', ';', ' ', 'g', '(', DQ, 'a', 'b', DQ, ')', ';']
      ['a', 'b'] 13 12 14 (by decide)⟩

theorem ra2_head_nonmatch (x c : Char) (r : List Char) {t : List Char} (h : c ≠ BS) :
    replaceAll [BS, x] r (c :: t) = c :: replaceAll [BS, x] r t := by
  apply replaceAll_cons_neg
  intro hpre
  obtain ⟨w, hw⟩ := isPrefixOf_exists.mp hpre
  injection hw with h1 _
  exact h h1

theorem ra2_match (x : Char) (r : List Char) {t : List Char} :
    replaceAll [BS, x] r (BS :: x :: t) = r ++ replaceAll [BS, x] r t := by
  have hpre : ([BS, x] : List Char).isPrefixOf (BS :: x :: t) = true :=
    isPrefixOf_exists.mpr ⟨t, rfl⟩
  rw [replaceAll_cons_pos r hpre]
  rfl

theorem ra2_peel2 (x c : Char) (r : List Char) {t : List Char} (hx : x ≠ c) (hc : c ≠ BS) :
    replaceAll [BS, x] r (BS :: c :: t) = BS :: c :: replaceAll [BS, x] r t := by
  have h1 : replaceAll [BS, x] r (BS :: c :: t) = BS :: replaceAll [BS, x] r (c :: t) := by
    apply replaceAll_cons_neg
    intro hpre
    obtain ⟨w, hw⟩ := isPrefixOf_exists.mp hpre
    injection hw with _ h2
    injection h2 with h3 _
    exact hx h3.symm
  rw [h1, ra2_head_nonmatch x c r hc]

theorem ra2_single (x c : Char) (r : List Char) :
    replaceAll [BS, x] r [c] = [c] := by
  rw [replaceAll_cons_neg]
  · rfl
  · intro hpre
    obtain ⟨w, hw⟩ := isPrefixOf_exists.mp hpre
    injection hw with _ h2
    exact List.noConfusion h2

theorem spec_cons_nonbs {c : Char} (h : c ≠ BS) (t : List Char) :
    specFallbackDecode (c :: t) = c :: specFallbackDecode t := by
  cases t with
  | nil => rfl
  | cons d u =>
    show (if c = BS then _ else c :: specFallbackDecode (d :: u)) = _
    rw [if_neg h]

theorem spec_bs_marker {c : Char} (h : isMarker c = true) (t : List Char) :
    specFallbackDecode (BS :: c :: t) = realOf c :: specFallbackDecode t := by
  show (if BS = BS then if isMarker c then _ else _ else _) = _
  rw [if_pos rfl, if_pos h]

theorem spec_bs_nonmarker {c : Char} (h : ¬ isMarker c = true) (t : List Char) :
    specFallbackDecode (BS :: c :: t) = BS :: specFallbackDecode (c :: t) := by
  show (if BS = BS then if isMarker c then _ else _ else _) = _
  rw [if_pos rfl, if_neg h]

theorem spec_id_of_no_bs {s : List Char} (h : BS ∉ s) : specFallbackDecode s = s := by
  induction s with
  | nil => rfl
  | cons c t ih =>
    rw [List.mem_cons] at h
    push_neg at h
    rw [spec_cons_nonbs (fun e => h.1 e.symm) t, ih h.2]

theorem fb_nil : fallbackChain [] = [] := rfl

theorem fb_cons_nonbs {c : Char} (h : c ≠ BS) (t : List Char) :
    fallbackChain (c :: t) = c :: fallbackChain t := by
  simp only [fallbackChain]
  rw [ra2_head_nonmatch 'n' c [NL] h, ra2_head_nonmatch 't' c [TAB] h,
    ra2_head_nonmatch 'r' c [CRc] h, ra2_head_nonmatch DQ c [DQ] h,
    ra2_head_nonmatch SQ c [SQ] h, ra2_head_nonmatch BS c [BS] h,
    ra2_head_nonmatch SL c [SL] h]

theorem fb_single_bs : fallbackChain [BS] = [BS] := by
  simp only [fallbackChain]
  rw [ra2_single 'n' BS [NL], ra2_single 't' BS [TAB], ra2_single 'r' BS [CRc],
    ra2_single DQ BS [DQ], ra2_single SQ BS [SQ], ra2_single BS BS [BS],
    ra2_single SL BS [SL]]

theorem fb_bs_n (u : List Char) : fallbackChain (BS :: 'n' :: u) = NL :: fallbackChain u := by
  simp only [fallbackChain]
  rw [ra2_match 'n' [NL], List.singleton_append,
    ra2_head_nonmatch 't' NL [TAB] (by decide), ra2_head_nonmatch 'r' NL [CRc] (by decide),
    ra2_head_nonmatch DQ NL [DQ] (by decide), ra2_head_nonmatch SQ NL [SQ] (by decide),
    ra2_head_nonmatch BS NL [BS] (by decide), ra2_head_nonmatch SL NL [SL] (by decide)]

theorem fb_bs_t (u : List Char) : fallbackChain (BS :: 't' :: u) = TAB :: fallbackChain u := by
  simp only [fallbackChain]
  rw [ra2_peel2 'n' 't' [NL] (by decide) (by decide),
    ra2_match 't' [TAB], List.singleton_append,
    ra2_head_nonmatch 'r' TAB [CRc] (by decide), ra2_head_nonmatch DQ TAB [DQ] (by decide),
    ra2_head_nonmatch SQ TAB [SQ] (by decide), ra2_head_nonmatch BS TAB [BS] (by decide),
    ra2_head_nonmatch SL TAB [SL] (by decide)]

theorem fb_bs_r (u : List Char) : fallbackChain (BS :: 'r' :: u) = CRc :: fallbackChain u := by
  simp only [fallbackChain]
  rw [ra2_peel2 'n' 'r' [NL] (by decide) (by decide),
    ra2_peel2 't' 'r' [TAB] (by decide) (by decide),
    ra2_match 'r' [CRc], List.singleton_append,
    ra2_head_nonmatch DQ CRc [DQ] (by decide), ra2_head_nonmatch SQ CRc [SQ] (by decide),
    ra2_head_nonmatch BS CRc [BS] (by decide), ra2_head_nonmatch SL CRc [SL] (by decide)]

theorem fb_bs_dq (u : List Char) : fallbackChain (BS :: DQ :: u) = DQ :: fallbackChain u := by
  simp only [fallbackChain]
  rw [ra2_peel2 'n' DQ [NL] (by decide) (by decide),
    ra2_peel2 't' DQ [TAB] (by decide) (by decide),
    ra2_peel2 'r' DQ [CRc] (by decide) (by decide),
    ra2_match DQ [DQ], List.singleton_append,
    ra2_head_nonmatch SQ DQ [SQ] (by decide),
    ra2_head_nonmatch BS DQ [BS] (by decide), ra2_head_nonmatch SL DQ [SL] (by decide)]

theorem fb_bs_sq (u : List Char) : fallbackChain (BS :: SQ :: u) = SQ :: fallbackChain u := by
  simp only [fallbackChain]
  rw [ra2_peel2 'n' SQ [NL] (by decide) (by decide),
    ra2_peel2 't' SQ [TAB] (by decide) (by decide),
    ra2_peel2 'r' SQ [CRc] (by decide) (by decide),
    ra2_peel2 DQ SQ [DQ] (by decide) (by decide),
    ra2_match SQ [SQ], List.singleton_append,
    ra2_head_nonmatch BS SQ [BS] (by decide), ra2_head_nonmatch SL SQ [SL] (by decide)]

theorem fb_bs_sl (u : List Char) : fallbackChain (BS :: SL :: u) = SL :: fallbackChain u := by
  simp only [fallbackChain]
  rw [ra2_peel2 'n' SL [NL] (by decide) (by decide),
    ra2_peel2 't' SL [TAB] (by decide) (by decide),
    ra2_peel2 'r' SL [CRc] (by decide) (by decide),
    ra2_peel2 DQ SL [DQ] (by decide) (by decide),
    ra2_peel2 SQ SL [SQ] (by decide) (by decide),
    ra2_peel2 BS SL [BS] (by decide) (by decide),
    ra2_match SL [SL], List.singleton_append]

theorem noDoubleBS_tail {c : Char} {t : List Char} (h : noDoubleBS (c :: t)) :
    noDoubleBS t := by
  cases t with
  | nil => trivial
  | cons d u => exact h.2

theorem fb_eq_spec : ∀ s, noDoubleBS s → fallbackChain s = specFallbackDecode s := by
  suffices H : ∀ n s, s.length ≤ n → noDoubleBS s →
      fallbackChain s = specFallbackDecode s by
    exact fun s => H s.length s (Nat.le_refl _)
  intro n
  induction n with
  | zero =>
    intro s hs _
    have : s = [] := List.length_eq_zero.mp (Nat.le_zero.mp hs)
    subst this
    rfl
  | succ n ih =>
    intro s hs hdd
    cases s with
    | nil => rfl
    | cons a t =>
      cases t with
      | nil =>
        by_cases ha : a = BS
        · subst ha
          rw [fb_single_bs]
          rfl
        · rw [fb_cons_nonbs ha, fb_nil]
          rfl
      | cons b u =>
        simp only [List.length_cons] at hs
        have hddu : noDoubleBS u := noDoubleBS_tail (noDoubleBS_tail hdd)
        have hlu : u.length ≤ n := by omega
        by_cases ha : a = BS
        · subst ha
          have hb : b ≠ BS := fun hbe => hdd.1 ⟨rfl, hbe⟩
          by_cases hm : isMarker b = true
          · simp only [isMarker, Bool.or_eq_true, decide_eq_true_eq] at hm
            rcases hm with ((((((rfl | rfl) | rfl) | rfl) | rfl) | rfl) | rfl)
            · rw [fb_bs_n u, spec_bs_marker (by decide) u]
              exact congrArg _ (ih u hlu hddu)
            · rw [fb_bs_t u, spec_bs_marker (by decide) u]
              exact congrArg _ (ih u hlu hddu)
            · rw [fb_bs_r u, spec_bs_marker (by decide) u]
              exact congrArg _ (ih u hlu hddu)
            · rw [fb_bs_dq u, spec_bs_marker (by decide) u]
              exact congrArg _ (ih u hlu hddu)
            · rw [fb_bs_sq u, spec_bs_marker (by decide) u]
              exact congrArg _ (ih u hlu hddu)
            · exact absurd rfl hb
            · rw [fb_bs_sl u, spec_bs_marker (by decide) u]
              exact congrArg _ (ih u hlu hddu)

          · have h1 : ('n' : Char) ≠ b := fun e => hm (e ▸ (by decide : isMarker 'n' = true))
            have h2 : ('t' : Char) ≠ b := fun e => hm (e ▸ (by decide : isMarker 't' = true))
            have h3 : ('r' : Char) ≠ b := fun e => hm (e ▸ (by decide : isMarker 'r' = true))
            have h4 : DQ ≠ b := fun e => hm (e ▸ (by decide : isMarker DQ = true))
            have h5 : SQ ≠ b := fun e => hm (e ▸ (by decide : isMarker SQ = true))
            have h6 : SL ≠ b := fun e => hm (e ▸ (by decide : isMarker SL = true))
            have hBSb : BS ≠ b := fun e => hb e.symm
            simp only [fallbackChain]
            rw [ra2_peel2 'n' b [NL] h1 hb, ra2_peel2 't' b [TAB] h2 hb,
              ra2_peel2 'r' b [CRc] h3 hb, ra2_peel2 DQ b [DQ] h4 hb,
              ra2_peel2 SQ b [SQ] h5 hb, ra2_peel2 BS b [BS] hBSb hb,
              ra2_peel2 SL b [SL] h6 hb]
            rw [spec_bs_nonmarker hm, spec_cons_nonbs hb]
            have hu := ih u hlu hddu
            simp only [fallbackChain] at hu
            rw [hu]
        · rw [fb_cons_nonbs ha, spec_cons_nonbs ha]
          exact congrArg _ (ih (b :: u) (by simp only [List.length_cons]; omega)
            (noDoubleBS_tail hdd))

theorem parse_none {s : List Char} (h : BS ∈ s) :
    parseEscapeSequences s none = fallbackChain s := by
  simp [parseEscapeSequences, h]

/-- Counterexample for C6: on the input backslash-backslash-n, the fallback
does not replace each backslash-marker occurrence by its real character —
the occurrence backslash-backslash (backslash followed by the marker
backslash) is not replaced; instead the trailing backslash-n is rewritten
first, producing backslash followed by a real newline, which differs from
the spec-modelled unconditional single-escape decode (backslash, n). -/
theorem C6_counterexample :
    parseEscapeSequences [BS, BS, 'n'] none = [BS, NL] ∧
    specFallbackDecode [BS, BS, 'n'] = [BS, 'n'] ∧
    parseEscapeSequences [BS, BS, 'n'] none ≠ specFallbackDecode [BS, BS, 'n'] := by
  decide

/-- C6 as amended: with no style context, the fallback runs seven global
single-escape replacements in the fixed order n, t, r, double quote, single
quote, backslash, slash; on any input with no two consecutive backslashes
(so no two escape occurrences overlap) this replaces every
backslash-marker occurrence by the corresponding real character, i.e. it
agrees with the left-to-right unconditional single-escape decode.  When
consecutive backslashes occur, a pair can be consumed by a following
marker's rule instead. -/
theorem C6_fallback_decode (s : List Char) (h : noDoubleBS s) :
    parseEscapeSequences s none = specFallbackDecode s := by
  by_cases hbs : BS ∈ s
  · rw [parse_none hbs]
    exact fb_eq_spec s h
  · rw [spec_id_of_no_bs hbs]
    unfold parseEscapeSequences
    rw [if_neg hbs]

/-- Witness for C6: a mixed input with no consecutive backslashes decodes to
the left-to-right single-escape reading. -/
theorem C6_witness :
    noDoubleBS [BS, 'n', 'x', BS, 't'] ∧
    parseEscapeSequences [BS, 'n', 'x', BS, 't'] none =
      specFallbackDecode [BS, 'n', 'x', BS, 't'] :=
  ⟨by decide, C6_fallback_decode [BS, 'n', 'x', BS, 't'] (by decide)⟩

theorem ipisAux_found_shape (line : List Char) (pos : Nat) :
    ∀ rest i inString stringStart quoteChar escapeNext,
      i + rest.length = line.length →
      line.drop i = rest →
      (inString = true → stringStart < i ∧ (quoteChar = DQ ∨ quoteChar = SQ) ∧
        line.get? stringStart = some quoteChar) →
      ∀ s e c,
        isPositionInStringAux line pos i rest inString stringStart quoteChar escapeNext
          = some (s, e, c) →
        1 ≤ s ∧ s ≤ e ∧ e ≤ line.length ∧ c = (line.drop s).take (e - s) ∧
        ∃ q, (q = DQ ∨ q = SQ) ∧ line.get? (s - 1) = some q ∧
          (e = line.length ∨ line.get? e = some q) := by
  intro rest
  induction rest with
  | nil =>
    intro i inString stringStart quoteChar escapeNext hlen hdrop hinv s e c h
    by_cases hc : inString = true ∧ pos > stringStart
    · rw [show isPositionInStringAux line pos i [] inString stringStart quoteChar escapeNext =
          (if inString = true ∧ pos > stringStart then
            some (stringStart + 1, line.length, line.drop (stringStart + 1))
          else none) from rfl, if_pos hc] at h
      have h' := Option.some.inj h
      have hs : stringStart + 1 = s := congrArg (fun x => x.1) h'
      have he : line.length = e := congrArg (fun x => x.2.1) h'
      have hc' : line.drop (stringStart + 1) = c := congrArg (fun x => x.2.2) h'
      subst hs
      subst he
      subst hc'
      obtain ⟨hlt, hq, hget⟩ := hinv hc.1
      simp only [List.length_nil, Nat.add_zero] at hlen
      refine ⟨Nat.le_add_left 1 stringStart, by omega, Nat.le_refl _, ?_,
        quoteChar, hq, by simpa using hget, Or.inl rfl⟩
      rw [List.take_of_length_le (by rw [List.length_drop])]
    · rw [show isPositionInStringAux line pos i [] inString stringStart quoteChar escapeNext =
          (if inString = true ∧ pos > stringStart then
            some (stringStart + 1, line.length, line.drop (stringStart + 1))
          else none) from rfl, if_neg hc] at h
      cases h
  | cons c0 rest ih =>
    intro i inString stringStart quoteChar escapeNext hlen hdrop hinv s e c h
    have hlen' : (i + 1) + rest.length = line.length := by
      simp only [List.length_cons] at hlen
      omega
    have hdrop' : line.drop (i + 1) = rest := by
      have h1 : List.drop 1 (List.drop i line) = List.drop (i + 1) line :=
        List.drop_drop 1 i line
      rw [← h1, hdrop]
      simp
    have hgeti : line.get? i = some c0 := by
      have h1 : (line.drop i).get? 0 = line.get? (i + 0) := List.get?_drop line i 0
      rw [hdrop] at h1
      simpa using h1.symm
    rw [show isPositionInStringAux line pos i (c0 :: rest) inString stringStart quoteChar
          escapeNext =
        (if escapeNext = true then
          isPositionInStringAux line pos (i + 1) rest inString stringStart quoteChar false
        else if c0 = BS then
          isPositionInStringAux line pos (i + 1) rest inString stringStart quoteChar true
        else if c0 = DQ ∨ c0 = SQ then
          (if ¬ inString = true then
            isPositionInStringAux line pos (i + 1) rest true i c0 false
          else if c0 = quoteChar then
            (if pos > stringStart ∧ pos < i then
              some (stringStart + 1, i, (line.drop (stringStart + 1)).take
                (i - (stringStart + 1)))
            else isPositionInStringAux line pos (i + 1) rest false 0 ' ' false)
          else isPositionInStringAux line pos (i + 1) rest inString stringStart quoteChar false)
        else isPositionInStringAux line pos (i + 1) rest inString stringStart quoteChar false)
        from rfl] at h
    by_cases he : escapeNext = true
    · rw [if_pos he] at h
      exact ih (i + 1) inString stringStart quoteChar false hlen' hdrop'
        (fun hin => ⟨Nat.lt_succ_of_lt (hinv hin).1, (hinv hin).2⟩) s e c h
    · rw [if_neg he] at h
      by_cases hb : c0 = BS
      · rw [if_pos hb] at h
        exact ih (i + 1) inString stringStart quoteChar true hlen' hdrop'
          (fun hin => ⟨Nat.lt_succ_of_lt (hinv hin).1, (hinv hin).2⟩) s e c h
      · rw [if_neg hb] at h
        by_cases hq : c0 = DQ ∨ c0 = SQ
        · rw [if_pos hq] at h
          by_cases hin : ¬ inString = true
          · rw [if_pos hin] at h
            exact ih (i + 1) true i c0 false hlen' hdrop'
              (fun _ => ⟨Nat.lt_succ_self i, hq, hgeti⟩) s e c h
          · rw [if_neg hin] at h
            push_neg at hin
            by_cases hqc : c0 = quoteChar
            · rw [if_pos hqc] at h
              by_cases hpos : pos > stringStart ∧ pos < i
              · rw [if_pos hpos] at h
                have h' := Option.some.inj h
                have hs : stringStart + 1 = s := congrArg (fun x => x.1) h'
                have he2 : i = e := congrArg (fun x => x.2.1) h'
                have hc' : (line.drop (stringStart + 1)).take (i - (stringStart + 1)) = c :=
                  congrArg (fun x => x.2.2) h'
                subst hs
                subst he2
                subst hc'
                obtain ⟨hlt, hqq, hget⟩ := hinv hin
                simp only [List.length_cons] at hlen
                refine ⟨Nat.le_add_left 1 stringStart, by omega, by omega, rfl,
                  quoteChar, hqq, by simpa using hget, Or.inr ?_⟩
                rw [hgeti, hqc]
              · rw [if_neg hpos] at h
                exact ih (i + 1) false 0 ' ' false hlen' hdrop'
                  (fun hfalse => absurd hfalse (by simp)) s e c h
            · rw [if_neg hqc] at h
              exact ih (i + 1) inString stringStart quoteChar false hlen' hdrop'
                (fun hin2 => ⟨Nat.lt_succ_of_lt (hinv hin2).1, (hinv hin2).2⟩) s e c h
        · rw [if_neg hq] at h
          exact ih (i + 1) inString stringStart quoteChar false hlen' hdrop'
            (fun hin2 => ⟨Nat.lt_succ_of_lt (hinv hin2).1, (hinv hin2).2⟩) s e c h

/-- C7.  Locator boundary scanning: any found result is a span excluding a
pair of quote characters — the content is exactly the slice of the line
between the span's endpoints, the character before the span is the opening
quote, and the span either ends at a matching closing quote or extends to
the end of the line (unterminated literal).  On the line a="x\"y"b with
offset 4 the locator returns the content x\"y with span (3, 7), the
backslash-escaped quote not closing the literal; on the unterminated line
a="no end with offset 5 it returns the content no end extending to the end
of the line. -/
theorem C7_boundary_scanning :
    (∀ line pos s e c, isPositionInString line pos = some (s, e, c) →
        1 ≤ s ∧ s ≤ e ∧ e ≤ line.length ∧ c = (line.drop s).take (e - s) ∧
        ∃ q, (q = DQ ∨ q = SQ) ∧ line.get? (s - 1) = some q ∧
          (e = line.length ∨ line.get? e = some q)) ∧
    isPositionInString ['a', '=', DQ, 'x', BS, DQ, 'y', DQ, 'b'] 4 =
      some (3, 7, ['x', BS, DQ, 'y']) ∧
    isPositionInString ['a', '=', DQ, 'n', 'o', ' ', 'e', 'n', 'd'] 5 =
      some (3, 9, ['n', 'o', ' ', 'e', 'n', 'd']) := by
  refine ⟨?_, by decide, by decide⟩
  intro line pos s e c h
  exact ipisAux_found_shape line pos line 0 false 0 ' ' false (by simp) (by simp)
    (fun hf => absurd hf (by simp)) s e c h

/-- Witness for C7: the span-shape property instantiated at the escaped
quote example. -/
theorem C7_witness :
    isPositionInString ['a', '=', DQ, 'x', BS, DQ, 'y', DQ, 'b'] 4 =
      some (3, 7, ['x', BS, DQ, 'y']) ∧
    (1 ≤ 3 ∧ 3 ≤ 7 ∧ 7 ≤ (['a', '=', DQ, 'x', BS, DQ, 'y', DQ, 'b'] : List Char).length ∧
     (['x', BS, DQ, 'y'] : List Char) =
       ((['a', '=', DQ, 'x', BS, DQ, 'y', DQ, 'b'] : List Char).drop 3).take (7 - 3) ∧
     ∃ q, (q = DQ ∨ q = SQ) ∧
       (['a', '=', DQ, 'x', BS, DQ, 'y', DQ, 'b'] : List Char).get? (3 - 1) = some q ∧
       (7 = (['a', '=', DQ, 'x', BS, DQ, 'y', DQ, 'b'] : List Char).length ∨
        (['a', '=', DQ, 'x', BS, DQ, 'y', DQ, 'b'] : List Char).get? 7 = some q)) :=
  ⟨by decide,
    C7_boundary_scanning.1 ['a', '=', DQ, 'x', BS, DQ, 'y', DQ, 'b'] 4 3 7
      ['x', BS, DQ, 'y'] (by decide)⟩
